import Mathlib

/-!
# Verification of the supermark core pipeline

Shallow embedding of the supermark document compiler core
(`src/supermark/core.py`, `src/supermark/extend.py`) and proofs about its
casting, registration, normalization (aside attachment and grouping) and
asset-aggregation algorithms.

Conventions of the embedding:

* Python dicts (`Dict[str, Any]`, used for page variables and YAML payloads)
  are association lists with python-dict update semantics (`setVar` replaces
  an existing binding in place, otherwise appends).
* `yaml.safe_load` is an external library call; its outcome is carried on the
  raw chunk as an oracle field (`YamlLoad`), covering the three cases the
  source distinguishes: a scanner error, a non-dict result, and a dict.
* Diagnostics (`report.tell`, `report.error`, `raw.tell`, and the bare
  `print` calls of the source) are accumulated in an explicit list.
* The class hierarchy of `chunks.py` is not part of the given sources; its
  capability methods (`is_aside`, `is_groupable`, `get_group`, `accepts`,
  `add_chunk`, `finish`, `add_aside`) are modelled from the spec where noted.
-/

namespace Supermark

/-! ## Page variables: python dict of strings, association-list model -/

/-- A page-variable mapping / YAML payload: `Dict[str, str]` as an
association list with insertion order, python-dict update semantics. -/
abbrev VarMap := List (String × String)

/-- The empty mapping, `page_variables = {}` at the start of `Core.cast`. -/
def emptyVars : VarMap := []

/-- `m[k] = v` with python-dict semantics: replace an existing binding in
place, otherwise append at the end. -/
def setVar : VarMap → String → String → VarMap
  | [], k, v => [(k, v)]
  | (k', v') :: rest, k, v =>
      if k' == k then (k, v) :: rest else (k', v') :: setVar rest k v

/-- Lookup in a mapping (python `m[k]` / `k in m`). -/
def getVar (m : VarMap) (k : String) : Option String :=
  (m.find? (fun p => p.1 == k)).map (fun p => p.2)

/-- `m.update(d)`: set every binding of `d` in `m`, in order. -/
def updateMap (m d : VarMap) : VarMap :=
  d.foldl (fun acc p => setVar acc p.1 p.2) m

/-! ## Raw chunks (`RawChunk` of `chunks.py`, as consumed by `Core._cast_chunk`) -/

/-- The coarse chunk kinds of `RawChunkType`. -/
inductive RawChunkType where
  | markdown
  | yaml
  | html
  | code
deriving DecidableEq, Repr

/-- Outcome of `yaml.safe_load("".join(raw.lines))`, carried as an oracle
field on the raw chunk (the YAML parser is an external library).  The source
catches only `ScannerError`; the other `YAMLError` subclasses a failed parse
can raise (`ParserError` on e.g. an unclosed flow bracket, `ComposerError`
on an undefined alias, `ConstructorError` on an unknown tag) are distinct
outcomes, because they are not caught and propagate. -/
inductive YamlLoad where
  | scanErr
      -- `yaml.scanner.ScannerError` raised (caught at `core.py:238`)
  | otherErr
      -- another `YAMLError` raised (`ParserError`, `ComposerError`,
      -- `ConstructorError`): caught nowhere in the source
  | notDict
      -- parsed, but the result is not a dict
  | dict (d : VarMap)
      -- parsed to a dict
deriving DecidableEq, Repr

/-- A raw segment as produced by the segmenter: its coarse type, its optional
inline tag (`raw.get_tag()`), the YAML-parse oracle for its payload and its
text lines. -/
structure RawChunk where
  rtype : RawChunkType
  tag : Option String
  yload : YamlLoad
  body : List String
deriving DecidableEq, Repr

/-! ## Extensions and the registry (`extend.py`) -/

/-- The kind of a registered extension, mirroring the isinstance dispatch of
`Core.register`: `YamlExtension` (with its type or list of types),
`ParagraphExtension` (tag plus optional extra tags), `TableClassExtension`
(one type string), or anything else. -/
inductive ExtKind where
  | yamlK (types : List String)
  | paragraphK (tag : String) (extraTags : Option (List String))
  | tableK (ty : String)
  | otherK
deriving DecidableEq, Repr

/-- An extension: its kind, the folder it was loaded from (a numeric stand-in
for the `Path`; extension folders share one parent directory, so path order
and name identity coincide with folder identity), and its css/js fragments. -/
structure Extension where
  kind : ExtKind
  folder : Nat
  css : String
  js : String
deriving DecidableEq, Repr

/-- An extension point's table: discriminator string to extension. -/
abbrev ExtMap := List (String × Extension)

/-- `extensions[key] = e` with python-dict semantics. -/
def setExt : ExtMap → String → Extension → ExtMap
  | [], k, e => [(k, e)]
  | (k', e') :: rest, k, e =>
      if k' == k then (k, e) :: rest else (k', e') :: setExt rest k e

/-- Lookup an extension by discriminator (`key in self.extensions`). -/
def getExt (m : ExtMap) (k : String) : Option Extension :=
  (m.find? (fun p => p.1 == k)).map (fun p => p.2)

/-- The three extension points owned by `Core`. -/
structure Registry where
  yamlPoint : ExtMap
  paragraphPoint : ExtMap
  tablePoint : ExtMap
deriving DecidableEq, Repr

/-- `YamlExtensionPoint.register`: register the extension under each of its
types (`[extension.type]` if it is a single string). -/
def registerYaml (m : ExtMap) (types : List String) (e : Extension) : ExtMap :=
  types.foldl (fun acc ty => setExt acc ty e) m

/-- `ParagraphExtensionPoint.register`: register under the tag, then under
every extra tag if any. -/
def registerParagraph (m : ExtMap) (tag : String) (extraTags : Option (List String))
    (e : Extension) : ExtMap :=
  match extraTags with
  | none => setExt m tag e
  | some extras => extras.foldl (fun acc t => setExt acc t e) (setExt m tag e)

/-- `Core.register`: dispatch on the extension's class.  The fallback branch
of the source evaluates `ValueError("Not sure what to do with this
extension.")` as a bare expression without `raise`, so it discards the
exception object and returns `None` normally; hence the `otherK` arm
returns `.ok` with the registry unchanged.  A raised error would be
`.error`. -/
def register (c : Registry) (e : Extension) : Except String Registry :=
  match e.kind with
  | .yamlK types => .ok { c with yamlPoint := registerYaml c.yamlPoint types e }
  | .paragraphK tag extras =>
      .ok { c with paragraphPoint := registerParagraph c.paragraphPoint tag extras e }
  | .tableK ty => .ok { c with tablePoint := setExt c.tablePoint ty e }
  | .otherK => .ok c

/-! ## Chunks produced by casting

The concrete chunk classes live in `chunks.py`, which is not among the given
sources; each constructor here records what its source-constructor call
receives.  `snap` is the content of the shared `page_variables` dict at the
moment the constructor runs (the constructed object holds a reference to the
one shared dict; the final state of that shared dict is the `VarMap`
returned by `cast`). -/
inductive CChunk where
  | markdownC (raw : RawChunk) (snap : VarMap)
      -- built-in `MarkdownChunk(raw, page_variables)`
  | extProseC (tag : String) (raw : RawChunk) (snap : VarMap)
      -- paragraph-extension chunk built by `cast_paragraph_class`
  | yamlDataC (raw : RawChunk) (d : VarMap) (snap : VarMap)
      -- `YAMLDataChunk(raw, dictionary, page_variables)`
  | yamlExtC (ty : String) (raw : RawChunk) (d : VarMap) (snap : VarMap)
      -- yaml-extension chunk built by `cast_yaml`
  | htmlC (raw : RawChunk) (snap : VarMap)
      -- `HTMLChunk(raw, page_variables)`
  | codeC (raw : RawChunk) (snap : VarMap)
      -- `Code(raw, page_variables)`
deriving DecidableEq, Repr

/-- The diagnostics the casting path can emit (report calls and bare prints
of the source, one constructor per call site). -/
inductive Diag where
  | warnUnknownTag (tag : String)
      -- `raw.tell("Paragraph tag :{}: is unknown.", WARNING)`
  | printNoYamlType (ty : String)
      -- `print("no yaml type: {}")`
  | errYamlScan
      -- `raw.report.error("Something is wrong with YAML section ...")`
  | errYamlNotDict
      -- `raw.report.error("Something is wrong with the YAML section.")`
  | errNoIdea
      -- `report.tell("No idea what to do with ... chunk ...", ERROR)`
deriving DecidableEq, Repr

/-- A python exception that escapes the casting code: `Core._cast_chunk`
wraps `yaml.safe_load` in `except ScannerError` only, so any other
`YAMLError` a failing parse raises leaves `_cast_chunk`, `Core.cast` and
`Core.parse_lines` (none of which handle it) and aborts the page. -/
inductive UncaughtError where
  | yamlParse
      -- a `YAMLError` other than `ScannerError` from `yaml.safe_load`
deriving DecidableEq, Repr

/-- The snapshot of the shared page-variable dict taken when a chunk was
constructed. -/
def snapOf : CChunk → VarMap
  | .markdownC _ s => s
  | .extProseC _ _ s => s
  | .yamlDataC _ _ s => s
  | .yamlExtC _ _ _ s => s
  | .htmlC _ s => s
  | .codeC _ s => s

/-! ## Casting (`ParagraphExtensionPoint.cast_paragraph_class`,
`YamlExtensionPoint.cast_yaml`, `Core._cast_chunk`, `Core.cast`) -/

/-- `ParagraphExtensionPoint.cast_paragraph_class`: a registered tag yields
the extension's chunk; an unknown tag warns and falls back to a built-in
`MarkdownChunk`. -/
def cast_paragraph_class (point : ExtMap) (raw : RawChunk) (tag : String)
    (vars : VarMap) : Option CChunk × List Diag :=
  match getExt point tag with
  | some _ => (some (.extProseC tag raw vars), [])
  | none => (some (.markdownC raw vars), [.warnUnknownTag tag])

/-- `YamlExtensionPoint.cast_yaml`: a registered type yields the extension's
chunk; an unknown type prints and yields nothing. -/
def cast_yaml (point : ExtMap) (raw : RawChunk) (ty : String) (d : VarMap)
    (vars : VarMap) : Option CChunk × List Diag :=
  match getExt point ty with
  | some _ => (some (.yamlExtC ty raw d vars), [])
  | none => (none, [.printNoYamlType ty])

/-- `Core._cast_chunk`: dispatch on the raw chunk's type.  On the normal
path it returns the produced chunk (if any), the updated shared
page-variable dict, and the diagnostics emitted inside the call.  Only the
type-less-dict YAML branch updates the dict
(`page_variables.update(data_chunk.dictionary)`); the non-dict YAML case
falls into the `else` clause of the `try` statement and reports, and a
scanner error is caught and reports; both produce no chunk.  A YAML parse
failure raising any other `YAMLError` is not caught: the exception
propagates (`.error`). -/
def cast_chunk (c : Registry) (raw : RawChunk) (vars : VarMap) :
    Except UncaughtError (Option CChunk × VarMap × List Diag) :=
  match raw.rtype with
  | .markdown =>
      match raw.tag with
      | none => .ok (some (.markdownC raw vars), vars, [])
      | some t =>
          if t == "aside" then .ok (some (.markdownC raw vars), vars, [])
          else
            .ok ((cast_paragraph_class c.paragraphPoint raw t vars).1, vars,
              (cast_paragraph_class c.paragraphPoint raw t vars).2)
  | .yaml =>
      match raw.yload with
      | .dict d =>
          match getVar d "type" with
          | some ty =>
              .ok ((cast_yaml c.yamlPoint raw ty d vars).1, vars,
                (cast_yaml c.yamlPoint raw ty d vars).2)
          | none => .ok (some (.yamlDataC raw d vars), updateMap vars d, [])
      | .notDict => .ok (none, vars, [.errYamlNotDict])
      | .scanErr => .ok (none, vars, [.errYamlScan])
      | .otherErr => .error .yamlParse
  | .html => .ok (some (.htmlC raw vars), vars, [])
  | .code => .ok (some (.codeC raw vars), vars, [])

/-- Body of the loop of `Core.cast`, threading the shared page-variable
dict: a `None` result triggers the "No idea what to do with ..." error and
contributes no chunk; otherwise the chunk is appended.  An uncaught
exception from `_cast_chunk` aborts the whole loop (`Core.cast` has no
handler), discarding the chunks already produced. -/
def castGo (c : Registry) : VarMap → List RawChunk →
    Except UncaughtError (List CChunk × VarMap × List Diag)
  | vars, [] => .ok ([], vars, [])
  | vars, raw :: rest =>
      match cast_chunk c raw vars with
      | .error e => .error e
      | .ok (none, vars', ds) =>
          match castGo c vars' rest with
          | .error e => .error e
          | .ok (ns, vf, ds2) => .ok (ns, vf, ds ++ Diag.errNoIdea :: ds2)
      | .ok (some ch, vars', ds) =>
          match castGo c vars' rest with
          | .error e => .error e
          | .ok (ns, vf, ds2) => .ok (ch :: ns, vf, ds ++ ds2)

/-- `Core.cast`: start from an empty page-variable dict. -/
def cast (c : Registry) (raws : List RawChunk) :
    Except UncaughtError (List CChunk × VarMap × List Diag) :=
  castGo c emptyVars raws

/-- The page-variable view any produced chunk exposes once casting is over:
every chunk stores a reference to the single shared `page_variables` dict,
so after the pass each chunk's view is the final mapping returned by
`cast` (this is how `build_html.py` reads `chunk.page_variables`). -/
def sharedView (res : List CChunk × VarMap × List Diag) (_ch : CChunk) : VarMap :=
  res.2.1

/-- Whether a raw chunk is a type-less structured-data (data-declaration)
segment: exactly the segments on which `cast_chunk` updates the shared
dict. -/
def isDataDecl (raw : RawChunk) : Bool :=
  match raw.rtype, raw.yload with
  | .yaml, .dict d => (getVar d "type").isNone
  | _, _ => false

/-- The payload of a data-declaration segment (empty otherwise). -/
def dataPayload (raw : RawChunk) : VarMap :=
  match raw.rtype, raw.yload with
  | .yaml, .dict d => if (getVar d "type").isNone then d else []
  | _, _ => []

/-- The page-variable dict accumulated by the data-declaration segments of a
prefix, in file order. -/
def dataMergeFrom (v : VarMap) : List RawChunk → VarMap
  | [] => v
  | raw :: rest =>
      if isDataDecl raw then dataMergeFrom (updateMap v (dataPayload raw)) rest
      else dataMergeFrom v rest

/-! ## Asset aggregation (`Core.get_css`, `Core.get_js`) -/

/-- Insert an extension into a list sorted by folder (model of
`sorted(list(used_extensions), key=lambda e: e.folder)`; the theorems below
use only that the result is a permutation of the input). -/
def insertExt (e : Extension) : List Extension → List Extension
  | [] => [e]
  | x :: xs => if x.folder ≤ e.folder then x :: insertExt e xs else e :: x :: xs

/-- Sort a list of used extensions by their folder. -/
def sortedByFolder (l : List Extension) : List Extension :=
  l.foldr insertExt []

/-- The css fragment one extension contributes when selected: the folder
banner plus the css, but only when `extension.get_css()` is truthy. -/
def cssFrag (e : Extension) : String :=
  if e.css ≠ "" then "/* === " ++ toString e.folder ++ " === */\n" ++ e.css ++ "\n\n"
  else ""

/-- The js fragment one extension contributes when selected
(`extension.get_js() + "\n"`, unconditionally). -/
def jsFrag (e : Extension) : String :=
  e.js ++ "\n"

/-- Loop of `Core.get_css` over the sorted extensions: skip an extension
whose folder was already seen, otherwise record the folder and append its
banner and css when the css is nonempty. -/
def get_css_go (folders : List Nat) : List Extension → String
  | [] => ""
  | e :: rest =>
      if e.folder ∈ folders then get_css_go folders rest
      else cssFrag e ++ get_css_go (e.folder :: folders) rest

/-- `Core.get_css`. -/
def get_css (used : List Extension) : String :=
  get_css_go [] (sortedByFolder used)

/-- Loop of `Core.get_js`: skip seen folders, otherwise append the js
fragment unconditionally. -/
def get_js_go (folders : List Nat) : List Extension → String
  | [] => ""
  | e :: rest =>
      if e.folder ∈ folders then get_js_go folders rest
      else jsFrag e ++ get_js_go (e.folder :: folders) rest

/-- `Core.get_js`. -/
def get_js (used : List Extension) : String :=
  get_js_go [] (sortedByFolder used)

/-- The extensions whose contribution the loops of `get_css`/`get_js`
consult: the first extension of each not-yet-seen folder, in order. -/
def selectByFolder (folders : List Nat) : List Extension → List Extension
  | [] => []
  | e :: rest =>
      if e.folder ∈ folders then selectByFolder folders rest
      else e :: selectByFolder (e.folder :: folders) rest

/-- Concatenation of a list of strings, in order. -/
def concatStrs : List String → String
  | [] => ""
  | s :: rest => s ++ concatStrs rest

/-- The per-folder selection `get_css` and `get_js` both apply to the set of
used extensions. -/
def usedSelection (used : List Extension) : List Extension :=
  selectByFolder [] (sortedByFolder used)

/-! ### Lemmas for C9 -/

theorem get_css_go_eq_select (l : List Extension) :
    ∀ folders, get_css_go folders l = concatStrs ((selectByFolder folders l).map cssFrag) := by
  induction l with
  | nil => intro folders; rfl
  | cons e rest ih =>
      intro folders
      by_cases h : e.folder ∈ folders
      · simp [get_css_go, selectByFolder, h, ih]
      · simp [get_css_go, selectByFolder, h, ih, concatStrs]

theorem get_js_go_eq_select (l : List Extension) :
    ∀ folders, get_js_go folders l = concatStrs ((selectByFolder folders l).map jsFrag) := by
  induction l with
  | nil => intro folders; rfl
  | cons e rest ih =>
      intro folders
      by_cases h : e.folder ∈ folders
      · simp [get_js_go, selectByFolder, h, ih]
      · simp [get_js_go, selectByFolder, h, ih, concatStrs]

/-- Every selected extension's folder was not previously seen, and the
selection never repeats a folder. -/
theorem selectByFolder_folders (l : List Extension) :
    ∀ folders, (∀ e ∈ selectByFolder folders l, e.folder ∉ folders) ∧
      (selectByFolder folders l).Pairwise (fun a b => a.folder ≠ b.folder) := by
  induction l with
  | nil => intro folders; simp [selectByFolder]
  | cons e rest ih =>
      intro folders
      by_cases h : e.folder ∈ folders
      · simpa [selectByFolder, h] using ih folders
      · rw [selectByFolder, if_neg h]
        have ihr := ih (e.folder :: folders)
        constructor
        · intro x hx
          rcases List.mem_cons.mp hx with rfl | hx'
          · exact h
          · have hnot := ihr.1 x hx'
            intro hmem
            exact hnot (List.mem_cons_of_mem _ hmem)
        · refine List.pairwise_cons.mpr ⟨?_, ihr.2⟩
          intro x hx
          have hnot := ihr.1 x hx
          intro heq
          exact hnot (by simp [heq])

/-- Every input folder not yet seen is represented in the selection. -/
theorem selectByFolder_covers (l : List Extension) :
    ∀ folders, ∀ e ∈ l, e.folder ∈ folders ∨
      ∃ e' ∈ selectByFolder folders l, e'.folder = e.folder := by
  induction l with
  | nil => intro folders e he; cases he
  | cons x rest ih =>
      intro folders e he
      by_cases h : x.folder ∈ folders
      · rw [selectByFolder, if_pos h]
        rcases List.mem_cons.mp he with heq | he'
        · exact Or.inl (by rw [heq]; exact h)
        · exact ih folders e he'
      · rw [selectByFolder, if_neg h]
        rcases List.mem_cons.mp he with heq | he'
        · exact Or.inr ⟨x, List.mem_cons_self _ _, by rw [heq]⟩
        · rcases ih (x.folder :: folders) e he' with hin | ⟨e', he'', heq⟩
          · rcases List.mem_cons.mp hin with heq' | hin'
            · exact Or.inr ⟨x, List.mem_cons_self _ _, heq'.symm⟩
            · exact Or.inl hin'
          · exact Or.inr ⟨e', List.mem_cons_of_mem _ he'', heq⟩

theorem mem_insertExt {x e : Extension} {l : List Extension} :
    x ∈ insertExt e l ↔ x = e ∨ x ∈ l := by
  induction l with
  | nil => simp [insertExt]
  | cons y ys ih =>
      by_cases h : y.folder ≤ e.folder
      · rw [insertExt, if_pos h]
        simp only [List.mem_cons, ih]
        tauto
      · rw [insertExt, if_neg h]
        simp only [List.mem_cons]

theorem mem_sortedByFolder {x : Extension} {l : List Extension} :
    x ∈ sortedByFolder l ↔ x ∈ l := by
  induction l with
  | nil => simp [sortedByFolder]
  | cons y ys ih =>
      show x ∈ insertExt y (sortedByFolder ys) ↔ _
      rw [mem_insertExt]
      simp only [List.mem_cons, ih]

/-- C9: `get_css` and `get_js` include the contribution of at most one
extension per distinct extension folder: both are exactly the concatenation
of the per-extension fragments over one common selection that contains no
two extensions of the same folder, while every used extension's folder is
represented by exactly one selected extension (deduplication is by folder,
not by extension identity). -/
theorem get_css_js_dedup_by_folder (used : List Extension) :
    get_css used = concatStrs ((usedSelection used).map cssFrag) ∧
    get_js used = concatStrs ((usedSelection used).map jsFrag) ∧
    (usedSelection used).Pairwise (fun a b => a.folder ≠ b.folder) ∧
    (∀ e ∈ used, ∃ e' ∈ usedSelection used, e'.folder = e.folder) := by
  refine ⟨get_css_go_eq_select _ _, get_js_go_eq_select _ _,
    (selectByFolder_folders _ []).2, ?_⟩
  intro e he
  rcases selectByFolder_covers (sortedByFolder used) [] e (mem_sortedByFolder.mpr he) with
    hin | hx
  · exact absurd hin (List.not_mem_nil _)
  · exact hx

/-- C10: registering an extension that is none of the three recognized kinds
returns normally with the registry unchanged (nothing registered in any
extension point) and raises no error: the source constructs the `ValueError`
without raising it, so the unrecognized extension is silently ignored. -/
theorem register_other_kind_silently_ignored
    (y p t : ExtMap) (folder : Nat) (css js : String) :
    register (Registry.mk y p t) (Extension.mk .otherK folder css js) =
      .ok (Registry.mk y p t) := rfl

/-! ## Lemmas about casting -/

/-- A produced chunk's construction-time snapshot is the page-variable dict
passed to `cast_chunk`. -/
theorem snapOf_cast_chunk (c : Registry) (raw : RawChunk) (v : VarMap) (n : CChunk)
    (v2 : VarMap) (ds : List Diag)
    (h : cast_chunk c raw v = .ok (some n, v2, ds)) : snapOf n = v := by
  unfold cast_chunk at h
  split at h
  · split at h
    · simp only [Except.ok.injEq, Prod.mk.injEq, Option.some.injEq] at h
      rw [← h.1]; rfl
    · split at h
      · simp only [Except.ok.injEq, Prod.mk.injEq, Option.some.injEq] at h
        rw [← h.1]; rfl
      · unfold cast_paragraph_class at h
        split at h <;>
          · simp only [Except.ok.injEq, Prod.mk.injEq, Option.some.injEq] at h
            rw [← h.1]; rfl
  · split at h
    · split at h
      · unfold cast_yaml at h
        split at h
        · simp only [Except.ok.injEq, Prod.mk.injEq, Option.some.injEq] at h
          rw [← h.1]; rfl
        · simp at h
      · simp only [Except.ok.injEq, Prod.mk.injEq, Option.some.injEq] at h
        rw [← h.1]; rfl
    · simp at h
    · simp at h
    · simp at h
  · simp only [Except.ok.injEq, Prod.mk.injEq, Option.some.injEq] at h
    rw [← h.1]; rfl
  · simp only [Except.ok.injEq, Prod.mk.injEq, Option.some.injEq] at h
    rw [← h.1]; rfl

/-- On the normal path, `cast_chunk` updates the shared dict exactly on
data-declaration segments, merging their payload. -/
theorem vars_of_cast_chunk (c : Registry) (raw : RawChunk) (v : VarMap)
    (t : Option CChunk × VarMap × List Diag) (h : cast_chunk c raw v = .ok t) :
    t.2.1 = if isDataDecl raw then updateMap v (dataPayload raw) else v := by
  unfold cast_chunk at h
  rcases raw with ⟨rt, tag, yl, body⟩
  cases rt with
  | markdown =>
      cases tag with
      | none =>
          simp only [Except.ok.injEq] at h
          subst h
          simp [isDataDecl]
      | some s =>
          by_cases hb : (s == "aside") = true
          · simp only [] at h
            rw [if_pos hb] at h
            simp only [Except.ok.injEq] at h
            subst h
            simp [isDataDecl]
          · simp only [] at h
            rw [if_neg hb] at h
            simp only [Except.ok.injEq] at h
            subst h
            simp [isDataDecl]
  | yaml =>
      cases yl with
      | scanErr =>
          simp only [Except.ok.injEq] at h
          subst h
          simp [isDataDecl]
      | otherErr => simp at h
      | notDict =>
          simp only [Except.ok.injEq] at h
          subst h
          simp [isDataDecl]
      | dict d =>
          cases hty : getVar d "type" with
          | none =>
              simp only [] at h
              rw [hty] at h
              simp only [Except.ok.injEq] at h
              subst h
              simp [isDataDecl, dataPayload, hty]
          | some ty =>
              simp only [] at h
              rw [hty] at h
              simp only [Except.ok.injEq] at h
              subst h
              simp [isDataDecl, hty]
  | html =>
      simp only [Except.ok.injEq] at h
      subst h
      simp [isDataDecl]
  | code =>
      simp only [Except.ok.injEq] at h
      subst h
      simp [isDataDecl]

/-- Generalized snapshot invariant for the cast loop: when it completes,
every produced chunk comes from some segment of the input, cast against the
page-variable dict accumulated by the data-declaration segments strictly
before it. -/
theorem castGo_snapshot (c : Registry) (l : List RawChunk) : ∀ v ns vf ds,
    castGo c v l = .ok (ns, vf, ds) →
    ∀ n ∈ ns, ∃ l1 raw l2, l = l1 ++ raw :: l2 ∧
      ∃ v2 ds2, cast_chunk c raw (dataMergeFrom v l1) = .ok (some n, v2, ds2) := by
  induction l with
  | nil =>
      intro v ns vf ds h n hn
      rw [castGo] at h
      simp only [Except.ok.injEq, Prod.mk.injEq] at h
      rw [← h.1] at hn
      cases hn
  | cons raw rest ih =>
      intro v ns vf ds h n hn
      cases hc : cast_chunk c raw v with
      | error e =>
          rw [castGo, hc] at h
          simp at h
      | ok s =>
          obtain ⟨och, v', dsh⟩ := s
          have hv' : v' = if isDataDecl raw then updateMap v (dataPayload raw) else v :=
            vars_of_cast_chunk c raw v (och, v', dsh) hc
          cases och with
          | none =>
              rw [castGo, hc] at h
              simp only [] at h
              cases hr : castGo c v' rest with
              | error e => rw [hr] at h; simp at h
              | ok t =>
                  obtain ⟨ns2, vf2, ds2⟩ := t
                  rw [hr] at h
                  simp only [Except.ok.injEq, Prod.mk.injEq] at h
                  obtain ⟨h1, h2, h3⟩ := h
                  subst h1
                  rcases ih v' _ vf2 ds2 hr n hn with ⟨l1, raw', l2, heq, v2, ds3, hcast⟩
                  refine ⟨raw :: l1, raw', l2, by rw [heq, List.cons_append], v2, ds3, ?_⟩
                  have hm : dataMergeFrom v (raw :: l1) = dataMergeFrom v' l1 := by
                    rw [dataMergeFrom]
                    by_cases hd : isDataDecl raw
                    · simp [hd, hv']
                    · simp [hd, hv']
                  rw [hm]
                  exact hcast
          | some ch =>
              rw [castGo, hc] at h
              simp only [] at h
              cases hr : castGo c v' rest with
              | error e => rw [hr] at h; simp at h
              | ok t =>
                  obtain ⟨ns2, vf2, ds2⟩ := t
                  rw [hr] at h
                  simp only [Except.ok.injEq, Prod.mk.injEq] at h
                  obtain ⟨h1, h2, h3⟩ := h
                  rw [← h1] at hn
                  rcases List.mem_cons.mp hn with heq | hn'
                  · refine ⟨[], raw, rest, rfl, v', dsh, ?_⟩
                    rw [heq]
                    exact hc
                  · rcases ih v' ns2 vf2 ds2 hr n hn' with
                      ⟨l1, raw', l2, heq2, v2, ds3, hcast⟩
                    refine ⟨raw :: l1, raw', l2, by rw [heq2, List.cons_append],
                      v2, ds3, ?_⟩
                    have hm : dataMergeFrom v (raw :: l1) = dataMergeFrom v' l1 := by
                      rw [dataMergeFrom]
                      by_cases hd : isDataDecl raw
                      · simp [hd, hv']
                      · simp [hd, hv']
                    rw [hm]
                    exact hcast

/-- Splitting a completed cast loop at a list append: the second part
continues from the page-variable dict the first part accumulated, and nodes
and diagnostics concatenate. -/
theorem castGo_append_ok (c : Registry) (l1 : List RawChunk) :
    ∀ l2 v ns1 v1 ds1 ns2 v2 ds2,
      castGo c v l1 = .ok (ns1, v1, ds1) →
      castGo c v1 l2 = .ok (ns2, v2, ds2) →
      castGo c v (l1 ++ l2) = .ok (ns1 ++ ns2, v2, ds1 ++ ds2) := by
  induction l1 with
  | nil =>
      intro l2 v ns1 v1 ds1 ns2 v2 ds2 h1 h2
      rw [castGo] at h1
      simp only [Except.ok.injEq, Prod.mk.injEq] at h1
      obtain ⟨ha, hb, hcc⟩ := h1
      subst ha; subst hb; subst hcc
      simpa using h2
  | cons raw rest ih =>
      intro l2 v ns1 v1 ds1 ns2 v2 ds2 h1 h2
      cases hc : cast_chunk c raw v with
      | error e =>
          rw [castGo, hc] at h1
          simp at h1
      | ok s =>
          obtain ⟨och, vmid, dsh⟩ := s
          cases och with
          | none =>
              rw [castGo, hc] at h1
              simp only [] at h1
              cases hr : castGo c vmid rest with
              | error e => rw [hr] at h1; simp at h1
              | ok t =>
                  obtain ⟨nsr, vfr, dsr⟩ := t
                  rw [hr] at h1
                  simp only [Except.ok.injEq, Prod.mk.injEq] at h1
                  obtain ⟨ha, hb, hcc⟩ := h1
                  subst ha; subst hb; subst hcc
                  rw [List.cons_append, castGo, hc]
                  simp only []
                  rw [ih l2 vmid _ _ _ _ _ _ hr h2]
                  simp
          | some ch =>
              rw [castGo, hc] at h1
              simp only [] at h1
              cases hr : castGo c vmid rest with
              | error e => rw [hr] at h1; simp at h1
              | ok t =>
                  obtain ⟨nsr, vfr, dsr⟩ := t
                  rw [hr] at h1
                  simp only [Except.ok.injEq, Prod.mk.injEq] at h1
                  obtain ⟨ha, hb, hcc⟩ := h1
                  subst ha; subst hb; subst hcc
                  rw [List.cons_append, castGo, hc]
                  simp only []
                  rw [ih l2 vmid _ _ _ _ _ _ hr h2]
                  simp

/-- A structured-data segment whose parse fails with the caught scanner
error, or whose parsed payload carries an unregistered `type`, casts to no
chunk, leaves the page-variable dict unchanged, and emits exactly one
diagnostic inside `_cast_chunk` — without raising. -/
theorem cast_chunk_bad_yaml (c : Registry) (bad : RawChunk)
    (hy : bad.rtype = .yaml)
    (hbad : bad.yload = .scanErr ∨
      ∃ d ty, bad.yload = .dict d ∧ getVar d "type" = some ty ∧
        getExt c.yamlPoint ty = none) :
    ∃ d0, ∀ w, cast_chunk c bad w = .ok (none, w, [d0]) := by
  rcases hbad with hsc | ⟨d, ty, hd, hty, hreg⟩
  · exact ⟨.errYamlScan, fun w => by simp [cast_chunk, hy, hsc]⟩
  · exact ⟨.printNoYamlType ty, fun w => by
      simp [cast_chunk, hy, hd, hty, cast_yaml, hreg]⟩

/-! ## Example inputs used by the concrete theorems below -/

/-- An empty registry (no third-party extensions discovered). -/
def exReg : Registry := ⟨[], [], []⟩

/-- A plain prose segment with no inline tag. -/
def exRawMd : RawChunk := ⟨.markdown, none, .notDict, ["Hello"]⟩

/-- A type-less structured-data (data-declaration) segment with payload
`a: 1`. -/
def exRawData : RawChunk := ⟨.yaml, none, .dict [("a", "1")], ["a: 1"]⟩

/-- A prose segment carrying the reserved aside tag. -/
def exRawAside : RawChunk := ⟨.markdown, some "aside", .notDict, ["note"]⟩

/-- A prose segment carrying an unregistered inline tag. -/
def exRawTagged : RawChunk := ⟨.markdown, some "fancy", .notDict, ["x"]⟩

/-- A structured-data segment whose payload fails to parse with a YAML
error other than a scanner error: an unclosed flow bracket raises
`ParserError`, which the source does not catch. -/
def exRawBadParse : RawChunk := ⟨.yaml, none, .otherErr, ["a: ["]⟩

/-- A structured-data segment whose payload fails to parse with the caught
scanner error (e.g. "mapping values are not allowed here"). -/
def exRawBadScan : RawChunk := ⟨.yaml, none, .scanErr, ["a: b: c"]⟩

/-! ## C1 -/

/-- C1 counterexample: in the page `[prose, data-declaration a=1]` the first
node is produced from the first segment, so no data-declaration occurs
strictly before it — its construction-time snapshot is empty — yet the
page-variable view it shares (every chunk holds a reference to the one
`page_variables` dict, whose final content `cast` returns) maps `a` to `1`,
a pair merged only by the later segment.  The claim that a node's
page-variable view contains a pair only if it was merged by a
data-declaration strictly before that node is therefore false on this
input. -/
theorem page_vars_shared_view_counterexample :
    cast exReg [exRawMd, exRawData] =
      .ok ([.markdownC exRawMd emptyVars,
            .yamlDataC exRawData [("a", "1")] emptyVars],
        [("a", "1")], []) ∧
    snapOf (.markdownC exRawMd emptyVars) = emptyVars ∧
    getVar (sharedView ([.markdownC exRawMd emptyVars,
          .yamlDataC exRawData [("a", "1")] emptyVars], [("a", "1")], [])
        (.markdownC exRawMd emptyVars)) "a" = some "1" :=
  ⟨rfl, rfl, rfl⟩

/-- C1 amended: at the moment a node is constructed, the shared
page-variable dict contains exactly the pairs accumulated by the
data-declaration segments strictly before that node's segment in source
order (single pass, file order); a node that reads the shared dict after
casting additionally observes later declarations. -/
theorem cast_snapshot (c : Registry) (l : List RawChunk) (ns : List CChunk)
    (vf : VarMap) (ds : List Diag) (h : cast c l = .ok (ns, vf, ds)) :
    ∀ n ∈ ns, ∃ l1 raw l2, l = l1 ++ raw :: l2 ∧
      (∃ v2 ds2, cast_chunk c raw (dataMergeFrom emptyVars l1) =
        .ok (some n, v2, ds2)) ∧
      snapOf n = dataMergeFrom emptyVars l1 := by
  intro n hn
  rcases castGo_snapshot c l emptyVars ns vf ds h n hn with
    ⟨l1, raw, l2, heq, v2, ds2, hcast⟩
  exact ⟨l1, raw, l2, heq, ⟨v2, ds2, hcast⟩,
    snapOf_cast_chunk c raw _ n v2 ds2 hcast⟩

theorem cast_snapshot_witness :
    cast exReg [exRawMd] =
      .ok ([CChunk.markdownC exRawMd emptyVars], emptyVars, []) ∧
    (∀ n ∈ [CChunk.markdownC exRawMd emptyVars], ∃ l1 raw l2,
      [exRawMd] = l1 ++ raw :: l2 ∧
      (∃ v2 ds2, cast_chunk exReg raw (dataMergeFrom emptyVars l1) =
        .ok (some n, v2, ds2)) ∧
      snapOf n = dataMergeFrom emptyVars l1) :=
  ⟨rfl, cast_snapshot exReg [exRawMd] _ _ _ rfl⟩

/-! ## C6 -/

/-- The same raw segment with its inline tag removed. -/
def eraseTag (r : RawChunk) : RawChunk := { r with tag := none }

/-- Modelled from the spec: equivalence of produced nodes.  `chunks.py` is
not among the sources; per the spec an unknown prose tag falls back to "a
ProseNode equivalent to an untagged one", so two chunks are equivalent when
they are instances of the same chunk class built from the same constructor
arguments, ignoring the inline tag retained on the raw segment. -/
def chunkEquiv : CChunk → CChunk → Bool
  | .markdownC r1 s1, .markdownC r2 s2 => eraseTag r1 == eraseTag r2 && s1 == s2
  | a, b => a == b

/-- C6: a prose segment with an inline tag that is neither registered in the
paragraph extension point nor the reserved tag "aside" casts to a built-in
`MarkdownChunk` equivalent to the one produced for the same segment without
a tag, with exactly one diagnostic naming the unknown tag (the untagged cast
emits none). -/
theorem unknown_prose_tag_falls_back (c : Registry) (raw : RawChunk) (t : String)
    (vars : VarMap)
    (hmd : raw.rtype = .markdown) (htag : raw.tag = some t) (hna : t ≠ "aside")
    (hunreg : getExt c.paragraphPoint t = none) :
    cast_chunk c raw vars =
      .ok (some (.markdownC raw vars), vars, [.warnUnknownTag t]) ∧
    cast_chunk c (eraseTag raw) vars =
      .ok (some (.markdownC (eraseTag raw) vars), vars, []) ∧
    chunkEquiv (.markdownC raw vars) (.markdownC (eraseTag raw) vars) = true := by
  have hbeq : (t == "aside") = false := by
    simp only [beq_eq_false_iff_ne, ne_eq]
    exact hna
  refine ⟨?_, ?_, ?_⟩
  · simp [cast_chunk, hmd, htag, hbeq, cast_paragraph_class, hunreg]
  · simp [cast_chunk, eraseTag, hmd]
  · simp [chunkEquiv, eraseTag]

theorem unknown_prose_tag_falls_back_witness :
    (exRawTagged.rtype = .markdown ∧ exRawTagged.tag = some "fancy" ∧
      "fancy" ≠ "aside" ∧ getExt exReg.paragraphPoint "fancy" = none) ∧
    (cast_chunk exReg exRawTagged emptyVars =
        .ok (some (.markdownC exRawTagged emptyVars), emptyVars,
          [.warnUnknownTag "fancy"]) ∧
      cast_chunk exReg (eraseTag exRawTagged) emptyVars =
        .ok (some (.markdownC (eraseTag exRawTagged) emptyVars), emptyVars, []) ∧
      chunkEquiv (.markdownC exRawTagged emptyVars)
        (.markdownC (eraseTag exRawTagged) emptyVars) = true) :=
  ⟨⟨rfl, rfl, by decide, rfl⟩,
    unknown_prose_tag_falls_back exReg exRawTagged "fancy" emptyVars rfl rfl
      (by decide) rfl⟩

/-! ## C7 -/

/-- C7 counterexample: a structured-data segment whose payload fails to
parse with a YAML error other than a scanner error (here `ParserError`,
from the unclosed flow bracket in its body) is not caught by `_cast_chunk`
(`except ScannerError` only): the exception propagates out of `Core.cast`
and aborts the page, so the remaining prose segment — which on its own
casts fine — is never processed.  The claim that casting a page with any
unparsable segment still processes all remaining segments is therefore
false on this input. -/
theorem uncaught_yaml_parse_error_aborts :
    cast exReg [exRawBadParse, exRawMd] = .error .yamlParse ∧
    cast exReg [exRawMd] =
      .ok ([.markdownC exRawMd emptyVars], emptyVars, []) :=
  ⟨rfl, rfl⟩

/-- C7 amended: a structured-data segment whose payload fails to parse with
a YAML scanner error (the only parse failure the source catches), or whose
parsed payload carries an unregistered `type`, contributes no node and no
page-variable change, emits its diagnostics (the in-cast one plus the "no
idea" error), and the remaining segments are still processed: whenever the
rest of the page casts successfully, the page with the bad segment casts to
the same nodes and the same final page variables, with the bad segment's
diagnostics inserted in place. -/
theorem bad_yaml_segment_skipped (c : Registry) (pre post : List RawChunk)
    (bad : RawChunk) (ns1 ns2 : List CChunk) (v1 v2 : VarMap)
    (ds1 ds2 : List Diag)
    (hy : bad.rtype = .yaml)
    (hbad : bad.yload = .scanErr ∨
      ∃ d ty, bad.yload = .dict d ∧ getVar d "type" = some ty ∧
        getExt c.yamlPoint ty = none)
    (hpre : castGo c emptyVars pre = .ok (ns1, v1, ds1))
    (hpost : castGo c v1 post = .ok (ns2, v2, ds2)) :
    ∃ d0, cast c (pre ++ bad :: post) =
        .ok (ns1 ++ ns2, v2, ds1 ++ d0 :: Diag.errNoIdea :: ds2) ∧
      cast c (pre ++ post) = .ok (ns1 ++ ns2, v2, ds1 ++ ds2) := by
  rcases cast_chunk_bad_yaml c bad hy hbad with ⟨d0, hstep⟩
  have hmid : castGo c v1 (bad :: post) =
      .ok (ns2, v2, d0 :: Diag.errNoIdea :: ds2) := by
    rw [castGo, hstep v1]
    simp only []
    rw [hpost]
    rfl
  exact ⟨d0,
    castGo_append_ok c pre (bad :: post) emptyVars ns1 v1 ds1 ns2 v2 _ hpre hmid,
    castGo_append_ok c pre post emptyVars ns1 v1 ds1 ns2 v2 ds2 hpre hpost⟩

theorem bad_yaml_segment_skipped_witness :
    (exRawBadScan.rtype = .yaml ∧ exRawBadScan.yload = .scanErr ∧
      castGo exReg emptyVars [exRawMd] =
        .ok ([.markdownC exRawMd emptyVars], emptyVars, []) ∧
      castGo exReg emptyVars [exRawData] =
        .ok ([.yamlDataC exRawData [("a", "1")] emptyVars], [("a", "1")], [])) ∧
    (∃ d0, cast exReg ([exRawMd] ++ exRawBadScan :: [exRawData]) =
        .ok ([.markdownC exRawMd emptyVars] ++
            [.yamlDataC exRawData [("a", "1")] emptyVars],
          [("a", "1")], [] ++ d0 :: Diag.errNoIdea :: []) ∧
      cast exReg ([exRawMd] ++ [exRawData]) =
        .ok ([.markdownC exRawMd emptyVars] ++
            [.yamlDataC exRawData [("a", "1")] emptyVars],
          [("a", "1")], [] ++ [])) :=
  ⟨⟨rfl, rfl, rfl, rfl⟩,
    bad_yaml_segment_skipped exReg [exRawMd] [exRawData] exRawBadScan
      [.markdownC exRawMd emptyVars] [.yamlDataC exRawData [("a", "1")] emptyVars]
      emptyVars [("a", "1")] [] [] rfl (Or.inl rfl) rfl rfl⟩

/-! ## Normalization chunks

`Core.arrange_assides` and `Core.group_chunks` consume chunks only through
the capability interface of `chunks.py` (`is_aside`, `add_aside`,
`is_groupable`, `is_group`, `get_group`, `accepts`, `add_chunk`, `finish`).
That interface is modelled from the spec: an atom stands for any
non-composite chunk, carrying its aside classification, its groupability
and its media kind plus the asides attached to it so far; a group
(`YAMLGroupChunk`) is the composite of a run of adjacent groupable chunks,
sealed by `finish`.  Per the spec a group accepts a groupable chunk of the
same media kind as its members ("same media kind as the group's first
member"), a fresh group is opened empty with the seeding chunk's kind, and
groups themselves are neither asides nor groupable. -/
inductive Chunk where
  | atom (cid : Nat) (aside : Bool) (groupable : Bool) (kind : Nat)
      (asides : List Chunk)
  | grp (kind : Nat) (members : List Chunk) (finished : Bool)
      (asides : List Chunk)

/-- `chunk.is_aside()`. -/
def is_aside : Chunk → Bool
  | .atom _ a _ _ _ => a
  | .grp _ _ _ _ => false

/-- `chunk.is_groupable()`. -/
def is_groupable : Chunk → Bool
  | .atom _ _ g _ _ => g
  | .grp _ _ _ _ => false

/-- `chunk.is_group()`. -/
def is_group : Chunk → Bool
  | .atom _ _ _ _ _ => false
  | .grp _ _ _ _ => true

/-- The media kind grouping compares. -/
def kindOf : Chunk → Nat
  | .atom _ _ _ k _ => k
  | .grp k _ _ _ => k

/-- `chunk.add_aside(aside)`: append to the owned aside list. -/
def add_aside : Chunk → Chunk → Chunk
  | .atom cid a g k asides, c => .atom cid a g k (asides ++ [c])
  | .grp k ms f asides, c => .grp k ms f (asides ++ [c])

/-- The asides a chunk currently owns. -/
def asidesOf : Chunk → List Chunk
  | .atom _ _ _ _ asides => asides
  | .grp _ _ _ asides => asides

/-- The same chunk with no asides attached. -/
def stripAsides : Chunk → Chunk
  | .atom cid a g k _ => .atom cid a g k []
  | .grp k ms f _ => .grp k ms f []

/-- `group.accepts(chunk)`: a group accepts chunks of its own media kind;
only groups accept. -/
def accepts : Chunk → Chunk → Bool
  | .grp k _ _ _, c => k == kindOf c
  | .atom _ _ _ _ _, _ => false

/-- `group.add_chunk(chunk)`: append a member (no effect on non-groups). -/
def add_chunk : Chunk → Chunk → Chunk
  | .grp k ms f asides, c => .grp k (ms ++ [c]) f asides
  | a, _ => a

/-- `group.finish()`: seal the group. -/
def finish : Chunk → Chunk
  | .grp k ms _ asides => .grp k ms true asides
  | a => a

/-- `chunk.get_group()`: a fresh, empty, unsealed group of the chunk's
kind. -/
def get_group (c : Chunk) : Chunk := .grp (kindOf c) [] false []

/-! ## `Core.arrange_assides`

The source appends each non-aside chunk to `main_chunks` and keeps mutating
it through the `current_main_chunk` reference while subsequent asides
attach.  The functional rendering holds the current main chunk out of the
emitted list and emits it when it is replaced or at the end; emission order
is unchanged.  The second component counts the "Aside chunk cannot be
defined as first element." warnings. -/
def arrange_go : Option Chunk → List Chunk → List Chunk × Nat
  | some m, [] => ([m], 0)
  | none, [] => ([], 0)
  | some m, c :: rest =>
      if is_aside c then arrange_go (some (add_aside m c)) rest
      else (m :: (arrange_go (some c) rest).1, (arrange_go (some c) rest).2)
  | none, c :: rest =>
      if is_aside c then
        (c :: (arrange_go none rest).1, (arrange_go none rest).2 + 1)
      else arrange_go (some c) rest

/-- `Core.arrange_assides`: returned top-level sequence plus warning
count. -/
def arrange_assides (l : List Chunk) : List Chunk × Nat := arrange_go none l

/-! ## `Core.group_chunks` -/

/-- Loop of `Core.group_chunks` with the open group and the accumulated
`new_chunks`. -/
def group_go : Option Chunk → List Chunk → List Chunk → List Chunk
  | none, acc, [] => acc
  | some g, acc, [] => acc ++ [finish g]
  | some g, acc, c :: rest =>
      if is_groupable c && accepts g c then
        group_go (some (add_chunk g c)) acc rest
      else
        if is_group c then group_go (some c) (acc ++ [finish g]) rest
        else group_go none (acc ++ [finish g, c]) rest
  | none, acc, c :: rest =>
      if is_groupable c then
        group_go (some (add_chunk (get_group c) c)) acc rest
      else if is_group c then
        group_go (some c) acc rest
      else
        group_go none (acc ++ [c]) rest

/-- `Core.group_chunks`. -/
def group_chunks (l : List Chunk) : List Chunk := group_go none [] l

/-- The normalization composition `Core.parse_lines` applies after casting:
aside attachment first, then grouping
(`group_chunks(arrange_assides(chunks))`). -/
def normalize (l : List Chunk) : List Chunk := group_chunks (arrange_assides l).1

/-! ## C2: aside attachment accounts for every chunk exactly once -/

/-- Flatten a top-level sequence back into chunks: each top-level chunk
(with its attached asides removed) followed by the asides attached to it,
in order. -/
def flattenTop : List Chunk → List Chunk
  | [] => []
  | c :: rest => stripAsides c :: (asidesOf c ++ flattenTop rest)

/-- Total number of asides attached across a top-level sequence. -/
def attachedTotal : List Chunk → Nat
  | [] => 0
  | c :: rest => (asidesOf c).length + attachedTotal rest

theorem stripAsides_of_no_asides {c : Chunk} (h : asidesOf c = []) :
    stripAsides c = c := by
  cases c with
  | atom cid a g k asides =>
      simp only [asidesOf] at h
      simp [stripAsides, h]
  | grp k ms f asides =>
      simp only [asidesOf] at h
      simp [stripAsides, h]

theorem asidesOf_add_aside (m c : Chunk) :
    asidesOf (add_aside m c) = asidesOf m ++ [c] := by
  cases m <;> rfl

theorem stripAsides_add_aside (m c : Chunk) :
    stripAsides (add_aside m c) = stripAsides m := by
  cases m <;> rfl

theorem is_aside_add_aside (m c : Chunk) :
    is_aside (add_aside m c) = is_aside m := by
  cases m <;> rfl

/-- Generalized accounting invariant with a current main chunk held out of
the emitted list. -/
theorem arrange_go_flatten_some (l : List Chunk) : ∀ m,
    (∀ c ∈ l, asidesOf c = []) →
    flattenTop (arrange_go (some m) l).1 = stripAsides m :: (asidesOf m ++ l) := by
  induction l with
  | nil =>
      intro m _
      simp [arrange_go, flattenTop]
  | cons c rest ih =>
      intro m h
      have hc : asidesOf c = [] := h c (List.mem_cons_self _ _)
      have hrest : ∀ x ∈ rest, asidesOf x = [] :=
        fun x hx => h x (List.mem_cons_of_mem _ hx)
      by_cases ha : is_aside c = true
      · rw [arrange_go, if_pos ha, ih (add_aside m c) hrest,
          stripAsides_add_aside, asidesOf_add_aside]
        simp
      · rw [arrange_go, if_neg ha]
        simp only [flattenTop]
        rw [ih c hrest, stripAsides_of_no_asides hc, hc]
        simp

/-- Accounting invariant with no current main chunk. -/
theorem arrange_go_flatten_none (l : List Chunk)
    (h : ∀ c ∈ l, asidesOf c = []) :
    flattenTop (arrange_go none l).1 = l := by
  induction l with
  | nil => rfl
  | cons c rest ih =>
      have hc : asidesOf c = [] := h c (List.mem_cons_self _ _)
      have hrest : ∀ x ∈ rest, asidesOf x = [] :=
        fun x hx => h x (List.mem_cons_of_mem _ hx)
      by_cases ha : is_aside c = true
      · rw [arrange_go, if_pos ha]
        simp only [flattenTop]
        rw [stripAsides_of_no_asides hc, hc, ih hrest]
        simp
      · rw [arrange_go, if_neg ha,
          arrange_go_flatten_some rest c hrest, stripAsides_of_no_asides hc, hc]
        simp

theorem flattenTop_length (l : List Chunk) :
    (flattenTop l).length = l.length + attachedTotal l := by
  induction l with
  | nil => rfl
  | cons c rest ih =>
      simp only [flattenTop, attachedTotal, List.length_cons, List.length_append, ih]
      omega

/-- C2: for a sequence of freshly cast chunks (no asides attached yet),
`arrange_assides` accounts for every chunk exactly once — flattening the
returned top-level sequence (each top-level chunk followed by the asides
attached to it) reproduces the input exactly, so in particular the length
of the top-level sequence plus the total number of chunks attached as
asides equals the length of the input, and no chunk is dropped or
duplicated. -/
theorem arrange_assides_accounts (l : List Chunk)
    (h : ∀ c ∈ l, asidesOf c = []) :
    flattenTop (arrange_assides l).1 = l ∧
    (arrange_assides l).1.length + attachedTotal (arrange_assides l).1 = l.length := by
  have hf := arrange_go_flatten_none l h
  refine ⟨hf, ?_⟩
  have := flattenTop_length (arrange_assides l).1
  rw [show arrange_go none l = arrange_assides l from rfl] at hf
  rw [hf] at this
  omega

/-- The concrete two-chunk input (a main chunk followed by an aside) used to
exercise the accounting theorem. -/
def c2input : List Chunk :=
  [Chunk.atom 0 false false 0 [], Chunk.atom 1 true false 0 []]

theorem c2input_no_asides : ∀ c ∈ c2input, asidesOf c = [] := by
  intro c hc
  rcases List.mem_cons.mp hc with h | hc
  · rw [h]; rfl
  rcases List.mem_cons.mp hc with h | hc
  · rw [h]; rfl
  · cases hc

theorem arrange_assides_accounts_witness :
    (∀ c ∈ c2input, asidesOf c = []) ∧
    (flattenTop (arrange_assides c2input).1 = c2input ∧
      (arrange_assides c2input).1.length +
        attachedTotal (arrange_assides c2input).1 = c2input.length) :=
  ⟨c2input_no_asides, arrange_assides_accounts c2input c2input_no_asides⟩

/-! ## C4: an aside as the very first chunk -/

/-- C4: when the very first chunk of the sequence self-identifies as an
aside (so no preceding main chunk exists), `arrange_assides` keeps it —
unchanged and unattached — as the head of the returned top-level sequence,
and reports exactly one warning for it on top of whatever the rest of the
sequence produces. -/
theorem aside_first_kept_with_warning (a : Chunk) (l : List Chunk)
    (h : is_aside a = true) :
    (arrange_assides (a :: l)).1 = a :: (arrange_assides l).1 ∧
    (arrange_assides (a :: l)).2 = (arrange_assides l).2 + 1 := by
  constructor
  · rw [arrange_assides, arrange_go]
    simp [h, arrange_assides]
  · rw [arrange_assides, arrange_go]
    simp [h, arrange_assides]

theorem aside_first_kept_with_warning_witness :
    is_aside (Chunk.atom 0 true false 0 []) = true ∧
    ((arrange_assides [Chunk.atom 0 true false 0 [],
        Chunk.atom 1 false false 0 []]).1 =
      Chunk.atom 0 true false 0 [] ::
        (arrange_assides [Chunk.atom 1 false false 0 []]).1 ∧
      (arrange_assides [Chunk.atom 0 true false 0 [],
        Chunk.atom 1 false false 0 []]).2 =
        (arrange_assides [Chunk.atom 1 false false 0 []]).2 + 1) :=
  ⟨rfl, aside_first_kept_with_warning (Chunk.atom 0 true false 0 [])
    [Chunk.atom 1 false false 0 []] rfl⟩

/-! ## C5: aside immediately after a data-declaration chunk -/

/-- Whether a cast chunk self-identifies as an aside.  Modelled from the
spec (`chunks.py` is absent): asides are prose segments carrying the
reserved "aside" tag; every other chunk class is not an aside. -/
def cchunkIsAside : CChunk → Bool
  | .markdownC raw _ => raw.tag == some "aside"
  | _ => false

/-- Forget a cast chunk down to the capability view the normalization passes
read, using its position as identity: aside classification from the chunk,
no groupability or grouping for built-in markdown and data chunks. -/
def toNorm (n : CChunk) (cid : Nat) : Chunk :=
  .atom cid (cchunkIsAside n) false 0 []

/-- A page's cast output as normalization input, indexed in order. -/
def toNormList (l : List CChunk) : List Chunk :=
  l.enum.map (fun p => toNorm p.2 p.1)

/-- C5 (evaluation at the failing input): for the page
`[data-declaration a=1, aside]` the data chunk is cast to a
`YAMLDataChunk`, which does not self-identify as an aside, so
`arrange_assides` makes it the current main chunk and attaches the
following aside to it: the result is a single top-level data chunk owning
the aside, with zero warnings — the aside is neither standalone nor
warned about, contrary to the claim. -/
theorem data_decl_then_aside_attached :
    cast exReg [exRawData, exRawAside] =
      .ok ([.yamlDataC exRawData [("a", "1")] emptyVars,
            .markdownC exRawAside [("a", "1")]], [("a", "1")], []) ∧
    cchunkIsAside (.yamlDataC exRawData [("a", "1")] emptyVars) = false ∧
    cchunkIsAside (.markdownC exRawAside [("a", "1")]) = true ∧
    arrange_assides (toNormList [.yamlDataC exRawData [("a", "1")] emptyVars,
        .markdownC exRawAside [("a", "1")]]) =
      ([Chunk.atom 0 false false 0 [Chunk.atom 1 true false 0 []]], 0) :=
  ⟨rfl, rfl, rfl, rfl⟩

/-! ## C3: grouping is idempotent -/

/-- Normalizing the accumulator of the grouping loop. -/
theorem group_go_acc (l : List Chunk) : ∀ cur acc,
    group_go cur acc l = acc ++ group_go cur [] l := by
  induction l with
  | nil =>
      intro cur acc
      cases cur with
      | none => simp [group_go]
      | some g => simp [group_go]
  | cons c rest ih =>
      intro cur acc
      cases cur with
      | none =>
          by_cases hg : is_groupable c = true
          · rw [group_go, if_pos hg, group_go, if_pos hg]
            exact ih _ acc
          · by_cases hgr : is_group c = true
            · rw [group_go, if_neg hg, if_pos hgr, group_go, if_neg hg, if_pos hgr]
              exact ih _ acc
            · rw [group_go, if_neg hg, if_neg hgr, group_go, if_neg hg, if_neg hgr]
              rw [ih none (acc ++ [c]), ih none ([] ++ [c])]
              simp
      | some g =>
          by_cases hacc : (is_groupable c && accepts g c) = true
          · rw [group_go, if_pos hacc, group_go, if_pos hacc]
            exact ih _ acc
          · by_cases hgr : is_group c = true
            · rw [group_go, if_neg hacc, if_pos hgr, group_go, if_neg hacc, if_pos hgr]
              rw [ih (some c) (acc ++ [finish g]), ih (some c) ([] ++ [finish g])]
              simp
            · rw [group_go, if_neg hacc, if_neg hgr, group_go, if_neg hacc, if_neg hgr]
              rw [ih none (acc ++ [finish g, c]), ih none ([] ++ [finish g, c])]
              simp

/-- Shape invariant of grouped output: every group is sealed, a groupable
atom never starts the sequence, and a groupable atom may only follow a
group of a different kind (the group that just rejected it). -/
def wellG : Option Nat → List Chunk → Bool
  | prev, [] =>
      match prev with
      | _ => true
  | prev, .atom _ _ g k _ :: rest =>
      if g then
        match prev with
        | some pk => decide (pk ≠ k) && wellG none rest
        | none => false
      else wellG none rest
  | _, .grp k _ f _ :: rest => f && wellG (some k) rest

/-- One pass of the grouping loop always produces output satisfying the
shape invariant; started on an open group, the output begins with that
group, sealed (possibly with more members), followed by a tail compatible
with its kind. -/
theorem group_go_wellG (l : List Chunk) :
    (wellG none (group_go none [] l) = true) ∧
    (∀ k ms f asides, ∃ ms' t,
      group_go (some (.grp k ms f asides)) [] l = .grp k ms' true asides :: t ∧
      wellG (some k) t = true) := by
  induction l with
  | nil =>
      constructor
      · rfl
      · intro k ms f asides
        exact ⟨ms, [], rfl, rfl⟩
  | cons c rest ih =>
      constructor
      · -- no open group at `c`
        cases c with
        | atom cid a g kc asides =>
            cases g with
            | true =>
                rw [group_go, if_pos (by rfl)]
                rw [show add_chunk (get_group (.atom cid a true kc asides))
                      (.atom cid a true kc asides) =
                    .grp kc [.atom cid a true kc asides] false [] from rfl]
                rcases ih.2 kc [.atom cid a true kc asides] false [] with
                  ⟨ms', t, heq, hw⟩
                rw [heq]
                simpa [wellG] using hw
            | false =>
                rw [group_go, if_neg (by simp [is_groupable]),
                  if_neg (by simp [is_group]), group_go_acc]
                simpa [wellG] using ih.1
        | grp kc msc fc asidesc =>
            rw [group_go, if_neg (by simp [is_groupable]),
              if_pos (by simp [is_group])]
            rcases ih.2 kc msc fc asidesc with ⟨ms', t, heq, hw⟩
            rw [heq]
            simpa [wellG] using hw
      · -- open group `grp k ms f asides` at `c`
        intro k ms f asides
        by_cases hacc : (is_groupable c && accepts (.grp k ms f asides) c) = true
        · rw [group_go, if_pos hacc]
          rcases ih.2 k (ms ++ [c]) f asides with ⟨ms', t, heq, hw⟩
          rw [show add_chunk (.grp k ms f asides) c = .grp k (ms ++ [c]) f asides
            from rfl]
          exact ⟨ms', t, heq, hw⟩
        · by_cases hgr : is_group c = true
          · rw [group_go, if_neg hacc, if_pos hgr, group_go_acc]
            cases c with
            | atom _ _ _ _ _ => simp [is_group] at hgr
            | grp kc msc fc asidesc =>
                rcases ih.2 kc msc fc asidesc with ⟨ms', t, heq, hw⟩
                rw [heq]
                refine ⟨ms, .grp kc ms' true asidesc :: t, by simp [finish], ?_⟩
                simpa [wellG] using hw
          · rw [group_go, if_neg hacc, if_neg hgr, group_go_acc]
            cases c with
            | atom cid a g kc asidesc =>
                cases g with
                | true =>
                    have hrej : (k == kc) = false := by
                      rcases Bool.and_eq_true_iff.not.mp hacc with h
                      by_cases hkk : (k == kc) = true
                      · exact absurd ⟨rfl, by simpa [accepts, kindOf] using hkk⟩ h
                      · simpa using hkk
                    refine ⟨ms, .atom cid a true kc asidesc :: group_go none [] rest,
                      by simp [finish], ?_⟩
                    have hk : decide (k ≠ kc) = true := by
                      simp only [decide_eq_true_eq, ne_eq]
                      intro hkk
                      rw [hkk] at hrej
                      simp at hrej
                    simp [wellG, hk, ih.1]
                | false =>
                    refine ⟨ms, .atom cid a false kc asidesc :: group_go none [] rest,
                      by simp [finish], ?_⟩
                    simp [wellG, ih.1]
            | grp _ _ _ _ => simp [is_group] at hgr

/-- Replaying the grouping loop on output satisfying the shape invariant
reproduces it unchanged. -/
theorem group_go_id (l : List Chunk) :
    (wellG none l = true → group_go none [] l = l) ∧
    (∀ k ms asides, wellG (some k) l = true →
      group_go (some (.grp k ms true asides)) [] l = .grp k ms true asides :: l) := by
  induction l with
  | nil =>
      constructor
      · intro _; rfl
      · intro k ms asides _
        rfl
  | cons c rest ih =>
      constructor
      · intro h
        cases c with
        | atom cid a g kc asidesc =>
            cases g with
            | true => simp [wellG] at h
            | false =>
                rw [group_go, if_neg (by simp [is_groupable]),
                  if_neg (by simp [is_group]), group_go_acc]
                rw [ih.1 (by simpa [wellG] using h)]
                rfl
        | grp kc msc fc asidesc =>
            have hf : fc = true ∧ wellG (some kc) rest = true := by
              simpa [wellG] using h
            rw [group_go, if_neg (by simp [is_groupable]),
              if_pos (by simp [is_group])]
            rw [hf.1]
            exact ih.2 kc msc asidesc hf.2
      · intro k ms asides h
        cases c with
        | atom cid a g kc asidesc =>
            cases g with
            | true =>
                have hk : decide (k ≠ kc) = true ∧ wellG none rest = true := by
                  simpa [wellG] using h
                have hrej : (is_groupable (Chunk.atom cid a true kc asidesc) &&
                    accepts (.grp k ms true asides)
                      (Chunk.atom cid a true kc asidesc)) = false := by
                  simp only [is_groupable, accepts, kindOf, Bool.true_and]
                  have := hk.1
                  simp only [decide_eq_true_eq, ne_eq] at this
                  simpa using this
                rw [group_go, if_neg (by simp [hrej]),
                  if_neg (by simp [is_group]), group_go_acc]
                rw [ih.1 hk.2]
                rfl
            | false =>
                rw [group_go, if_neg (by simp [is_groupable]),
                  if_neg (by simp [is_group]), group_go_acc]
                rw [ih.1 (by simpa [wellG] using h)]
                rfl
        | grp kc msc fc asidesc =>
            have hf : fc = true ∧ wellG (some kc) rest = true := by
              simpa [wellG] using h
            rw [group_go, if_neg (by simp [is_groupable]),
              if_pos (by simp [is_group]), group_go_acc]
            rw [hf.1]
            rw [ih.2 kc msc asidesc hf.2]
            rfl

/-- C3: `group_chunks` is idempotent on its own output. -/
theorem group_chunks_idempotent (l : List Chunk) :
    group_chunks (group_chunks l) = group_chunks l :=
  (group_go_id (group_chunks l)).1 (group_go_wellG l).1

/-! ## C8: an aside between two groupable chunks does not break their group

Attaching the aside `a` to the chunk `g1` changes nothing the grouping pass
reads (groupability, group-ness, media kind), so grouping the arranged
sequence with `add_aside g1 a` in place of `g1` produces the same output up
to that substitution, propagated into group members.  `sim g1 a` is the
congruence closure of that single substitution. -/
inductive sim (g1 a : Chunk) : Chunk → Chunk → Prop where
  | srefl (c) : sim g1 a c c
  | sbase : sim g1 a g1 (add_aside g1 a)
  | sgrp (k : Nat) (ms ms' : List Chunk) (f : Bool) (asd : List Chunk)
      (h : List.Forall₂ (sim g1 a) ms ms') :
      sim g1 a (.grp k ms f asd) (.grp k ms' f asd)

theorem is_groupable_add_aside (c x : Chunk) :
    is_groupable (add_aside c x) = is_groupable c := by
  cases c <;> rfl

theorem is_group_add_aside (c x : Chunk) :
    is_group (add_aside c x) = is_group c := by
  cases c <;> rfl

theorem kindOf_add_aside (c x : Chunk) :
    kindOf (add_aside c x) = kindOf c := by
  cases c <;> rfl

theorem finish_of_not_group {c : Chunk} (h : is_group c = false) :
    finish c = c := by
  cases c with
  | atom _ _ _ _ _ => rfl
  | grp _ _ _ _ => simp [is_group] at h

theorem is_group_of_groupable {c : Chunk} (h : is_groupable c = true) :
    is_group c = false := by
  cases c with
  | atom _ _ _ _ _ => rfl
  | grp _ _ _ _ => simp [is_groupable] at h

theorem sim_is_groupable {g1 a x y : Chunk} (h : sim g1 a x y) :
    is_groupable y = is_groupable x := by
  cases h with
  | srefl c => rfl
  | sbase => exact is_groupable_add_aside g1 a
  | sgrp k ms ms' f asd h => rfl

theorem sim_is_group {g1 a x y : Chunk} (h : sim g1 a x y) :
    is_group y = is_group x := by
  cases h with
  | srefl c => rfl
  | sbase => exact is_group_add_aside g1 a
  | sgrp k ms ms' f asd h => rfl

theorem sim_kindOf {g1 a x y : Chunk} (h : sim g1 a x y) :
    kindOf y = kindOf x := by
  cases h with
  | srefl c => rfl
  | sbase => exact kindOf_add_aside g1 a
  | sgrp k ms ms' f asd h => rfl

theorem sim_finish {g1 a x y : Chunk} (hga : is_group g1 = false)
    (h : sim g1 a x y) : sim g1 a (finish x) (finish y) := by
  cases h with
  | srefl c => exact .srefl _
  | sbase =>
      rw [finish_of_not_group hga,
        finish_of_not_group (by rw [is_group_add_aside]; exact hga)]
      exact .sbase
  | sgrp k ms ms' f asd h => exact .sgrp k ms ms' true asd h

theorem forall2_append_rel {R : Chunk → Chunk → Prop} {l1 l2 l1' l2' : List Chunk}
    (h1 : List.Forall₂ R l1 l1') (h2 : List.Forall₂ R l2 l2') :
    List.Forall₂ R (l1 ++ l2) (l1' ++ l2') := by
  induction h1 with
  | nil => exact h2
  | cons hx hl ih => exact .cons hx ih

theorem sim_accepts {g1 a x y c c' : Chunk} (hx : sim g1 a x y)
    (hc : sim g1 a c c') : accepts y c' = accepts x c := by
  have hkc : kindOf c' = kindOf c := sim_kindOf hc
  cases hx with
  | srefl _ =>
      cases x with
      | atom _ _ _ _ _ => rfl
      | grp k ms f asd => simp [accepts, hkc]
  | sbase =>
      cases g1 with
      | atom _ _ _ _ _ => rfl
      | grp k ms f asd => simp [add_aside, accepts, hkc]
  | sgrp k ms ms' f asd h => simp [accepts, hkc]

theorem forall2_sim_refl (g1 a : Chunk) (ms : List Chunk) :
    List.Forall₂ (sim g1 a) ms ms := by
  induction ms with
  | nil => exact .nil
  | cons x xs ih => exact .cons (.srefl x) ih

theorem sim_add_chunk {g1 a x y c c' : Chunk} (hga : is_group g1 = false)
    (hx : sim g1 a x y) (hc : sim g1 a c c') :
    sim g1 a (add_chunk x c) (add_chunk y c') := by
  cases hx with
  | srefl _ =>
      cases x with
      | atom cid b g k asd => exact .srefl _
      | grp k ms f asd =>
          exact .sgrp k (ms ++ [c]) (ms ++ [c']) f asd
            (forall2_append_rel (forall2_sim_refl g1 a ms) (.cons hc .nil))
  | sbase =>
      cases g1 with
      | atom cid b g k asd => exact .sbase
      | grp k ms f asd => simp [is_group] at hga
  | sgrp k ms ms' f asd h =>
      exact .sgrp k (ms ++ [c]) (ms' ++ [c']) f asd
        (forall2_append_rel h (.cons hc .nil))

theorem sim_get_group {g1 a c c' : Chunk} (hc : sim g1 a c c') :
    get_group c' = get_group c := by
  unfold get_group
  rw [sim_kindOf hc]

/-- Relating the open-group state of two grouping runs. -/
inductive simOpt (g1 a : Chunk) : Option Chunk → Option Chunk → Prop where
  | none : simOpt g1 a none none
  | some {x y : Chunk} : sim g1 a x y → simOpt g1 a (some x) (some y)

/-- The grouping loop is a congruence for the substitution relation: related
inputs, open groups and accumulators give related outputs. -/
theorem group_go_sim {g1 a : Chunk} (hga : is_group g1 = false)
    {l l' : List Chunk} (hl : List.Forall₂ (sim g1 a) l l') :
    ∀ cur cur' acc acc', simOpt g1 a cur cur' →
      List.Forall₂ (sim g1 a) acc acc' →
      List.Forall₂ (sim g1 a) (group_go cur acc l) (group_go cur' acc' l') := by
  induction hl with
  | nil =>
      intro cur cur' acc acc' hcur hacc
      cases hcur with
      | none => simpa [group_go] using hacc
      | some hxy =>
          simp only [group_go]
          exact forall2_append_rel hacc (.cons (sim_finish hga hxy) .nil)
  | @cons c c' rest rest' hcc hrest ih =>
      intro cur cur' acc acc' hcur hacc
      cases hcur with
      | none =>
          by_cases hg : is_groupable c = true
          · have hg' : is_groupable c' = true := by
              rw [sim_is_groupable hcc]; exact hg
            rw [group_go, if_pos hg, group_go, if_pos hg']
            refine ih _ _ _ _ (.some ?_) hacc
            rw [sim_get_group hcc]
            exact sim_add_chunk hga (.srefl _) hcc
          · have hg' : ¬ is_groupable c' = true := by
              rw [sim_is_groupable hcc]; exact hg
            by_cases hgr : is_group c = true
            · have hgr' : is_group c' = true := by
                rw [sim_is_group hcc]; exact hgr
              rw [group_go, if_neg hg, if_pos hgr, group_go, if_neg hg', if_pos hgr']
              exact ih _ _ _ _ (.some hcc) hacc
            · have hgr' : ¬ is_group c' = true := by
                rw [sim_is_group hcc]; exact hgr
              rw [group_go, if_neg hg, if_neg hgr, group_go, if_neg hg', if_neg hgr']
              exact ih _ _ _ _ .none
                (forall2_append_rel hacc (.cons hcc .nil))
      | @some x y hxy =>
          by_cases hb : (is_groupable c && accepts x c) = true
          · have hb' : (is_groupable c' && accepts y c') = true := by
              rw [sim_is_groupable hcc, sim_accepts hxy hcc]; exact hb
            rw [group_go, if_pos hb, group_go, if_pos hb']
            exact ih _ _ _ _ (.some (sim_add_chunk hga hxy hcc)) hacc
          · have hb' : ¬ (is_groupable c' && accepts y c') = true := by
              rw [sim_is_groupable hcc, sim_accepts hxy hcc]; exact hb
            by_cases hgr : is_group c = true
            · have hgr' : is_group c' = true := by
                rw [sim_is_group hcc]; exact hgr
              rw [group_go, if_neg hb, if_pos hgr, group_go, if_neg hb', if_pos hgr']
              exact ih _ _ _ _ (.some hcc)
                (forall2_append_rel hacc (.cons (sim_finish hga hxy) .nil))
            · have hgr' : ¬ is_group c' = true := by
                rw [sim_is_group hcc]; exact hgr
              rw [group_go, if_neg hb, if_neg hgr, group_go, if_neg hb', if_neg hgr']
              exact ih _ _ _ _ .none
                (forall2_append_rel hacc
                  (.cons (sim_finish hga hxy) (.cons hcc .nil)))

/-- Inserting an aside right after the non-aside chunk `g1`, with another
non-aside chunk following, changes the arranged top-level sequence only by
attaching that aside to `g1` — surrounding top-level chunks and the warning
count are untouched. -/
theorem arrange_insert_aside (g1 a g2 : Chunk) (l2 : List Chunk)
    (ha : is_aside a = true) (hg1 : is_aside g1 = false) (hg2 : is_aside g2 = false)
    (l1 : List Chunk) : ∀ cur, ∃ L M w,
      arrange_go cur (l1 ++ g1 :: a :: g2 :: l2) = (L ++ add_aside g1 a :: M, w) ∧
      arrange_go cur (l1 ++ g1 :: g2 :: l2) = (L ++ g1 :: M, w) := by
  induction l1 with
  | nil =>
      intro cur
      cases cur with
      | none =>
          refine ⟨[], (arrange_go (some g2) l2).1, (arrange_go (some g2) l2).2,
            ?_, ?_⟩
          · rw [List.nil_append, arrange_go, if_neg (by simp [hg1]),
              arrange_go, if_pos ha, arrange_go, if_neg (by simp [hg2])]
            simp
          · rw [List.nil_append, arrange_go, if_neg (by simp [hg1]),
              arrange_go, if_neg (by simp [hg2])]
            simp
      | some m =>
          refine ⟨[m], (arrange_go (some g2) l2).1, (arrange_go (some g2) l2).2,
            ?_, ?_⟩
          · rw [List.nil_append, arrange_go, if_neg (by simp [hg1]),
              arrange_go, if_pos ha, arrange_go, if_neg (by simp [hg2])]
            simp
          · rw [List.nil_append, arrange_go, if_neg (by simp [hg1]),
              arrange_go, if_neg (by simp [hg2])]
            simp
  | cons c rest ih =>
      intro cur
      by_cases hc : is_aside c = true
      · cases cur with
        | some m =>
            rcases ih (some (add_aside m c)) with ⟨L, M, w, h1, h2⟩
            exact ⟨L, M, w,
              by rw [List.cons_append, arrange_go, if_pos hc]; exact h1,
              by rw [List.cons_append, arrange_go, if_pos hc]; exact h2⟩
        | none =>
            rcases ih none with ⟨L, M, w, h1, h2⟩
            refine ⟨c :: L, M, w + 1, ?_, ?_⟩
            · rw [List.cons_append, arrange_go, if_pos hc, h1]
              simp
            · rw [List.cons_append, arrange_go, if_pos hc, h2]
              simp
      · cases cur with
        | some m =>
            rcases ih (some c) with ⟨L, M, w, h1, h2⟩
            refine ⟨m :: L, M, w, ?_, ?_⟩
            · rw [List.cons_append, arrange_go, if_neg hc, h1]
              simp
            · rw [List.cons_append, arrange_go, if_neg hc, h2]
              simp
        | none =>
            rcases ih (some c) with ⟨L, M, w, h1, h2⟩
            exact ⟨L, M, w,
              by rw [List.cons_append, arrange_go, if_neg hc]; exact h1,
              by rw [List.cons_append, arrange_go, if_neg hc]; exact h2⟩

/-- Splitting a pointwise relation at a middle element of the left list. -/
theorem forall2_append_cons_decomp {R : Chunk → Chunk → Prop} :
    ∀ (xs : List Chunk) {y : Chunk} {zs w : List Chunk},
      List.Forall₂ R (xs ++ y :: zs) w →
      ∃ xs' y' zs', w = xs' ++ y' :: zs' ∧ List.Forall₂ R xs xs' ∧ R y y' ∧
        List.Forall₂ R zs zs' := by
  intro xs
  induction xs with
  | nil =>
      intro y zs w h
      cases h with
      | cons hy hzs => exact ⟨[], _, _, rfl, .nil, hy, hzs⟩
  | cons x xs ih =>
      intro y zs w h
      cases h with
      | cons hx htail =>
          rcases ih htail with ⟨xs', y', zs', rfl, h1, h2, h3⟩
          exact ⟨_ :: xs', y', zs', rfl, .cons hx h1, h2, h3⟩

theorem forall2_mem_left {R : Chunk → Chunk → Prop} :
    ∀ {ms ms' : List Chunk}, List.Forall₂ R ms ms' → ∀ {x}, x ∈ ms →
      ∃ y ∈ ms', R x y := by
  intro ms ms' h
  induction h with
  | nil => intro x hx; cases hx
  | @cons u v us vs hy ht ih =>
      intro x hx
      rcases List.mem_cons.mp hx with heq | hx'
      · exact ⟨v, List.mem_cons_self _ _, heq ▸ hy⟩
      · rcases ih hx' with ⟨y, hy', hr⟩
        exact ⟨y, List.mem_cons_of_mem _ hy', hr⟩

theorem sim_of_not_group {g1 a x y : Chunk} (h : sim g1 a x y)
    (hx : is_group x = false) : y = x ∨ (x = g1 ∧ y = add_aside g1 a) := by
  cases h with
  | srefl _ => exact Or.inl rfl
  | sbase => exact Or.inr ⟨rfl, rfl⟩
  | sgrp k ms ms' f asd h => simp [is_group] at hx

theorem sim_grp_left {g1 a : Chunk} {k : Nat} {ms : List Chunk} {f : Bool}
    {asd : List Chunk} {y : Chunk} (hga : is_group g1 = false)
    (h : sim g1 a (.grp k ms f asd) y) :
    ∃ ms', y = .grp k ms' f asd ∧ List.Forall₂ (sim g1 a) ms ms' := by
  cases h with
  | srefl _ => exact ⟨ms, rfl, forall2_sim_refl g1 a ms⟩
  | sbase => simp [is_group] at hga
  | sgrp k ms ms' f asd h => exact ⟨ms', rfl, h⟩

/-- C8: `Core.parse_lines` attaches asides before grouping
(`group_chunks(arrange_assides(chunks))`), so an aside sitting between two
groupable chunks that would otherwise end up in one sealed group does not
break that group: the final output contains the same sealed group, with the
first chunk now carrying the aside and the second chunk still a member. -/
theorem aside_between_groupables_stays_grouped
    (l1 l2 : List Chunk) (g1 a g2 : Chunk) (k : Nat)
    (ms pre suf asd : List Chunk)
    (ha : is_aside a = true) (hg1 : is_aside g1 = false) (hg2 : is_aside g2 = false)
    (hgr1 : is_groupable g1 = true) (hgr2 : is_groupable g2 = true)
    (hne : g2 ≠ g1)
    (H : normalize (l1 ++ g1 :: g2 :: l2) = pre ++ .grp k ms true asd :: suf)
    (Hg1 : g1 ∈ ms) (Hg2 : g2 ∈ ms) :
    ∃ pre' ms' suf', normalize (l1 ++ g1 :: a :: g2 :: l2) =
      pre' ++ .grp k ms' true asd :: suf' ∧
      (g1 ∈ ms' ∨ add_aside g1 a ∈ ms') ∧ g2 ∈ ms' := by
  have hga : is_group g1 = false := is_group_of_groupable hgr1
  rcases arrange_insert_aside g1 a g2 l2 ha hg1 hg2 l1 none with ⟨L, M, w, hwith, hwithout⟩
  have h1 : (arrange_assides (l1 ++ g1 :: a :: g2 :: l2)).1 =
      L ++ add_aside g1 a :: M := by
    unfold arrange_assides
    rw [hwith]
  have h2 : (arrange_assides (l1 ++ g1 :: g2 :: l2)).1 = L ++ g1 :: M := by
    unfold arrange_assides
    rw [hwithout]
  have hl : List.Forall₂ (sim g1 a) (L ++ g1 :: M) (L ++ add_aside g1 a :: M) :=
    forall2_append_rel (forall2_sim_refl g1 a L)
      (.cons .sbase (forall2_sim_refl g1 a M))
  have hsim : List.Forall₂ (sim g1 a) (normalize (l1 ++ g1 :: g2 :: l2))
      (normalize (l1 ++ g1 :: a :: g2 :: l2)) := by
    unfold normalize group_chunks
    rw [h1, h2]
    exact group_go_sim hga hl _ _ _ _ .none .nil
  rw [H] at hsim
  rcases forall2_append_cons_decomp pre hsim with ⟨pre', y', suf', heqw, hpre, hy, hsuf⟩
  rcases sim_grp_left hga hy with ⟨ms', hy', hms⟩
  subst hy'
  refine ⟨pre', ms', suf', heqw, ?_, ?_⟩
  · rcases forall2_mem_left hms Hg1 with ⟨y, hymem, hsim1⟩
    rcases sim_of_not_group hsim1 hga with hEq | ⟨_, hEq⟩
    · exact Or.inl (hEq ▸ hymem)
    · exact Or.inr (hEq ▸ hymem)
  · rcases forall2_mem_left hms Hg2 with ⟨y, hymem, hsim2⟩
    have hg2g : is_group g2 = false := is_group_of_groupable hgr2
    rcases sim_of_not_group hsim2 hg2g with hEq | ⟨h21, _⟩
    · exact hEq ▸ hymem
    · exact absurd h21 hne

/-- A groupable image-like chunk of kind 7. -/
def c8g1 : Chunk := .atom 1 false true 7 []

/-- A second groupable chunk of the same kind. -/
def c8g2 : Chunk := .atom 2 false true 7 []

/-- An aside chunk (of unrelated kind). -/
def c8a : Chunk := .atom 3 true false 9 []

theorem aside_between_groupables_stays_grouped_witness :
    (is_aside c8a = true ∧ is_aside c8g1 = false ∧ is_aside c8g2 = false ∧
      is_groupable c8g1 = true ∧ is_groupable c8g2 = true ∧ c8g2 ≠ c8g1 ∧
      normalize ([] ++ c8g1 :: c8g2 :: []) =
        [] ++ Chunk.grp 7 [c8g1, c8g2] true [] :: [] ∧
      c8g1 ∈ [c8g1, c8g2] ∧ c8g2 ∈ [c8g1, c8g2]) ∧
    (∃ pre' ms' suf', normalize ([] ++ c8g1 :: c8a :: c8g2 :: []) =
        pre' ++ Chunk.grp 7 ms' true [] :: suf' ∧
        (c8g1 ∈ ms' ∨ add_aside c8g1 c8a ∈ ms') ∧ c8g2 ∈ ms') :=
  ⟨⟨rfl, rfl, rfl, rfl, rfl, by simp [c8g1, c8g2], rfl,
      List.mem_cons_self _ _, List.mem_cons_of_mem _ (List.mem_cons_self _ _)⟩,
    aside_between_groupables_stays_grouped [] [] c8g1 c8a c8g2 7 [c8g1, c8g2]
      [] [] [] rfl rfl rfl rfl rfl (by simp [c8g1, c8g2]) rfl
      (List.mem_cons_self _ _) (List.mem_cons_of_mem _ (List.mem_cons_self _ _))⟩

end Supermark

